import Mathlib

/-!
Verification of the Caesar-cipher engine in `src/encryption.py`
(`class CaesarCipher`).

Modelling conventions: Python `str` text is `List Char`, Python `int` is
`Int`, `raise ValueError` in `encrypt`/`decrypt`/`brute_force_decrypt` is
`Except CipherError`, and the two distinct `ValueError` messages are the
two constructors of `CipherError`.  The analysis dictionary returned by
`analyze_encrypted_text` is the structure `Analysis`; its early return of
`{"error": "Empty text provided"}` is the `AnalyzeResult.emptyError`
marker.  Percentages are modelled over `ℚ` with round-half-to-even (the
rounding Python's `round` documents; binary floating-point representation
artefacts are abstracted away).
-/

/-- Python `string.ascii_lowercase`. -/
def ascii_lowercase : String := "abcdefghijklmnopqrstuvwxyz"

/-- Python `string.ascii_uppercase`. -/
def ascii_uppercase : String := "ABCDEFGHIJKLMNOPQRSTUVWXYZ"

/-- Python `string.digits`. -/
def digits : String := "0123456789"

/-- Python `string.punctuation`. -/
def punctuation : String := "!\"#$%&\x27()*+,-./:;<=>?@[\\]^_\x60\x7b|\x7d~"

/-- Python `string.whitespace`. -/
def whitespace : String := " \t\n\r\x0b\x0c"

/-- The fixed alphabet `self.charset` built once in `CaesarCipher.__init__`:
`string.ascii_letters + string.digits + string.punctuation + ' \n\t'`, where
Python's `ascii_letters` is the lower-case letters followed by the
upper-case letters.  Both `encrypt` and `decrypt` index into this one
constant. -/
def charset : List Char :=
  (ascii_lowercase ++ ascii_uppercase ++ digits ++ punctuation ++ " \n\t").data

/-- Python `string.printable`
(`digits + ascii_letters + punctuation + whitespace`), used by
`analyze_encrypted_text` to classify characters. -/
def printable : List Char :=
  (digits ++ ascii_lowercase ++ ascii_uppercase ++ punctuation ++ whitespace).data

/-- The two `ValueError`s raised by the cipher: `invalidArgument` is
"Shift must be between 1 and 25" and `emptyInput` is
"Text cannot be empty" / "Encrypted text cannot be empty". -/
inductive CipherError where
  | invalidArgument : CipherError
  | emptyInput : CipherError
  deriving DecidableEq

/-- Python `self.charset.index(char)` guarded by `char in self.charset`:
the position of the first occurrence of `c`, or `none` when `c` is absent. -/
def idxIn (c : Char) : List Char → Option Nat
  | [] => none
  | d :: ds => if d = c then some 0 else (idxIn c ds).map (· + 1)

/-- The loop body of `CaesarCipher.encrypt` for one character:
`new_index = (old_index + shift) % len(self.charset)` when the character is
in the charset, identity otherwise. -/
def encryptChar (shift : Int) (c : Char) : Char :=
  match idxIn c charset with
  | some old_index =>
      charset.getD (((old_index : Int) + shift) % (charset.length : Int)).toNat 'a'
  | none => c

/-- The loop body of `CaesarCipher.decrypt` for one character:
`new_index = (old_index - shift) % len(self.charset)` (Python `%` on a
positive modulus is always non-negative, as is `Int.emod`). -/
def decryptChar (shift : Int) (c : Char) : Char :=
  match idxIn c charset with
  | some old_index =>
      charset.getD (((old_index : Int) - shift) % (charset.length : Int)).toNat 'a'
  | none => c

/-- `CaesarCipher.encrypt text shift`. -/
def encrypt (text : List Char) (shift : Int) : Except CipherError (List Char) :=
  if ¬ (1 ≤ shift ∧ shift ≤ 25) then .error .invalidArgument
  else if text = [] then .error .emptyInput
  else .ok (text.map (encryptChar shift))

/-- `CaesarCipher.decrypt encrypted_text shift`. -/
def decrypt (encrypted_text : List Char) (shift : Int) : Except CipherError (List Char) :=
  if ¬ (1 ≤ shift ∧ shift ≤ 25) then .error .invalidArgument
  else if encrypted_text = [] then .error .emptyInput
  else .ok (encrypted_text.map (decryptChar shift))

/-- The shift keys `range(1, 26)` tried by `brute_force_decrypt`. -/
def shiftsList : List Int := (List.range 25).map fun k => (k : Int) + 1

/-- `CaesarCipher.brute_force_decrypt`: every shift in `range(1, 26)` is
tried; the per-shift `try/except` that stores either the decryption or an
error marker is captured by storing the `Except` value itself. -/
def brute_force_decrypt (encrypted_text : List Char) :
    Except CipherError (List (Int × Except CipherError (List Char))) :=
  if encrypted_text = [] then .error .emptyInput
  else .ok (shiftsList.map fun s => (s, decrypt encrypted_text s))

/-- Python dict lookup `results[s]` on the association list of results. -/
def lookupShift (s : Int) : List (Int × Except CipherError (List Char)) →
    Option (Except CipherError (List Char))
  | [] => none
  | kv :: rest => if kv.1 = s then some kv.2 else lookupShift s rest

/-- Python dict update `freq[c] = freq.get(c, 0) + 1` on an
insertion-ordered association list (Python dicts preserve insertion
order). -/
def bump : List (Char × Nat) → Char → List (Char × Nat)
  | [], c => [(c, 1)]
  | (d, n) :: rest, c => if d = c then (d, n + 1) :: rest else (d, n) :: bump rest c

/-- The `char_frequency` dict built by the counting loop of
`CaesarCipher.analyze_encrypted_text`, scanning the text left to right. -/
def buildFreq (text : List Char) : List (Char × Nat) := text.foldl bump []

/-- Python `max(items, key=lambda x: x[1])` starting from a first item:
Python's `max` keeps the earlier element on ties, so the fold replaces the
accumulator only on a strictly larger count. -/
def pickBy (x : Char × Nat) (xs : List (Char × Nat)) : Char × Nat :=
  xs.foldl (fun b y => if b.2 < y.2 then y else b) x

/-- Python `max(analysis["char_frequency"].items(), key=lambda x: x[1])`,
`none` on an empty dict. -/
def maxByCount : List (Char × Nat) → Option (Char × Nat)
  | [] => none
  | x :: xs => some (pickBy x xs)

/-- Round-half-to-even to the nearest integer, the tie-breaking rule
documented for Python's `round`. -/
def halfEvenRound (q : ℚ) : ℤ :=
  if q - ⌊q⌋ < 1/2 then ⌊q⌋
  else if 1/2 < q - ⌊q⌋ then ⌊q⌋ + 1
  else if ⌊q⌋ % 2 = 0 then ⌊q⌋ else ⌊q⌋ + 1

/-- Python `round(x, 2)`. -/
def round2 (q : ℚ) : ℚ := (halfEvenRound (q * 100) : ℚ) / 100

/-- The `most_common_char` entry of the analysis dictionary. -/
structure MostCommon where
  char : Char
  count : Nat
  percentage : ℚ
  deriving DecidableEq

/-- The analysis dictionary built by `analyze_encrypted_text` on non-empty
input. -/
structure Analysis where
  length : Nat
  unique_chars : Nat
  char_frequency : List (Char × Nat)
  most_common_char : Option MostCommon
  printable_chars : Nat
  non_printable_chars : Nat
  deriving DecidableEq

/-- Result of `analyze_encrypted_text`: either the `{"error": ...}` marker
dict returned for empty input, or the analysis dictionary. -/
inductive AnalyzeResult where
  | emptyError : AnalyzeResult
  | result : Analysis → AnalyzeResult
  deriving DecidableEq

/-- `CaesarCipher.analyze_encrypted_text`.  `unique_chars` is
`len(set(encrypted_text))`, the printable split tests membership in
`string.printable`, and `most_common_char` applies Python `max` over the
insertion-ordered frequency dict. -/
def analyze_encrypted_text (text : List Char) : AnalyzeResult :=
  if text = [] then .emptyError
  else
    AnalyzeResult.result
      { length := text.length
        unique_chars := text.dedup.length
        char_frequency := buildFreq text
        most_common_char := (maxByCount (buildFreq text)).map fun mc =>
          { char := mc.1
            count := mc.2
            percentage := round2 (((mc.2 : ℚ) / (text.length : ℚ)) * 100) }
        printable_chars := text.countP fun c => printable.contains c
        non_printable_chars := text.countP fun c => !(printable.contains c) }

/-- Dynamically-typed Python values that can reach `validate_shift`.
Python booleans are instances of `int` and are represented by their
integer value. -/
inductive PyVal where
  | intVal : Int → PyVal
  | strVal : List Char → PyVal
  | floatVal : PyVal
  | noneVal : PyVal
  deriving DecidableEq

/-- `CaesarCipher.validate_shift`:
`isinstance(shift, int) and (1 <= shift <= 25)`, a total function into
`Bool` (the surrounding `try/except` can never fire). -/
def validate_shift : PyVal → Bool
  | .intVal n => decide (1 ≤ n ∧ n ≤ 25)
  | _ => false

/-- Does `p` occur at the head of `s`? -/
def leadsWith : List Char → List Char → Bool
  | [], _ => true
  | _ :: _, [] => false
  | p :: ps, c :: cs => p == c && leadsWith ps cs

/-- Python substring test `p in s`. -/
def containsSub (s p : List Char) : Bool :=
  match s with
  | [] => leadsWith p []
  | c :: rest => leadsWith p (c :: rest) || containsSub rest p

/-- The `common_patterns` table of `generate_shift_suggestions`. -/
def common_patterns : List (List Char × Nat) :=
  [("def ".data, 3), ("class ".data, 5), ("print(".data, 7),
   ("import ".data, 11), ("if __name__".data, 13)]

/-- Ordered duplicate-free insertion; folding it over a list realises
Python `sorted(list(set(xs)))`. -/
def insertNoDup (n : Nat) : List Nat → List Nat
  | [] => [n]
  | m :: ms =>
      if n < m then n :: m :: ms
      else if n = m then m :: ms
      else m :: insertNoDup n ms

/-- Python `sorted(list(set(xs)))`. -/
def sortedDedup (xs : List Nat) : List Nat := xs.foldr insertNoDup []

/-- The pattern-scanning loop of `generate_shift_suggestions`:
`pattern.lower() in text_sample.lower()` contributes the associated
shift. -/
def matchedShifts (text_sample : List Char) : List Nat :=
  common_patterns.filterMap fun ps =>
    if containsSub (text_sample.map Char.toLower) (ps.1.map Char.toLower)
    then some ps.2 else none

/-- `CaesarCipher.generate_shift_suggestions`: default list on empty
input; otherwise the matched shifts (or the fallback list when nothing
matched) deduplicated, sorted and truncated to the first 5. -/
def generate_shift_suggestions (text_sample : List Char) : List Nat :=
  if text_sample = [] then [1, 3, 5, 13]
  else if matchedShifts text_sample = [] then
    (sortedDedup [1, 3, 5, 7, 13, 17, 21, 25]).take 5
  else (sortedDedup (matchedShifts text_sample)).take 5

/-- The distinct symbols of a text in order of first occurrence — the key
order of a Python dict filled by a left-to-right scan. -/
def firstOccurs : List Char → List Char
  | [] => []
  | c :: cs => c :: (firstOccurs cs).filter fun d => d != c

/-- Index of the first occurrence of `c` in `t` (`t.length` when `c` is
absent). -/
def fstIdx (t : List Char) (c : Char) : Nat := (idxIn c t).getD t.length

/-- Modelled from the spec claim wording for comparison: the alphabet with
the upper-case letters first, then lower-case letters, digits,
punctuation, space, newline and tab, in that order. -/
def charsetSpecOrder : List Char :=
  (ascii_uppercase ++ ascii_lowercase ++ digits ++ punctuation ++ " \n\t").data

theorem idxIn_lt_length {c : Char} {l : List Char} {i : Nat}
    (h : idxIn c l = some i) : i < l.length := by
  induction l generalizing i with
  | nil => simp [idxIn] at h
  | cons d ds ih =>
    by_cases hd : d = c
    · simp only [idxIn, if_pos hd, Option.some.injEq] at h
      simp [← h]
    · simp only [idxIn, if_neg hd, Option.map_eq_some'] at h
      obtain ⟨j, hj, hji⟩ := h
      have := ih hj
      simp only [List.length_cons]
      omega

theorem idxIn_getD {c : Char} {l : List Char} {i : Nat}
    (h : idxIn c l = some i) : l.getD i 'a' = c := by
  induction l generalizing i with
  | nil => simp [idxIn] at h
  | cons d ds ih =>
    by_cases hd : d = c
    · simp only [idxIn, if_pos hd, Option.some.injEq] at h
      simp [← h, hd]
    · simp only [idxIn, if_neg hd, Option.map_eq_some'] at h
      obtain ⟨j, hj, hji⟩ := h
      rw [← hji]
      simpa [List.getD_cons_succ] using ih hj

theorem idxIn_eq_none {c : Char} {l : List Char} : idxIn c l = none ↔ c ∉ l := by
  induction l with
  | nil => simp [idxIn]
  | cons d ds ih =>
    by_cases hd : d = c
    · simp [idxIn, hd]
    · simp [idxIn, hd, ih, Ne.symm hd]

theorem getD_mem {l : List Char} {j : Nat} (h : j < l.length) : l.getD j 'a' ∈ l := by
  induction l generalizing j with
  | nil => simp at h
  | cons d ds ih =>
    cases j with
    | zero => simp
    | succ j =>
      simp only [List.length_cons] at h
      simpa [List.getD_cons_succ] using Or.inr (ih (by omega))

theorem idxIn_of_getD {l : List Char} (hnd : l.Nodup) {j : Nat} (h : j < l.length) :
    idxIn (l.getD j 'a') l = some j := by
  induction l generalizing j with
  | nil => simp at h
  | cons d ds ih =>
    cases j with
    | zero => simp [idxIn]
    | succ j =>
      simp only [List.length_cons] at h
      have hj : j < ds.length := by omega
      have hmem : ds.getD j 'a' ∈ ds := getD_mem hj
      have hd : d ≠ ds.getD j 'a' := by
        intro he
        exact (List.nodup_cons.mp hnd).1 (he ▸ hmem)
      simp only [List.getD_cons_succ, idxIn, if_neg hd,
        ih (List.nodup_cons.mp hnd).2 hj, Option.map_some']

theorem charset_length : charset.length = 97 := by rfl

theorem charset_nodup : charset.Nodup := by decide

theorem getD_map {f : Char → Char} {l : List Char} {i : Nat} (h : i < l.length) :
    (l.map f).getD i 'a' = f (l.getD i 'a') := by
  rw [List.getD_eq_getElem?_getD, List.getD_eq_getElem?_getD, List.getElem?_map,
    List.getElem?_eq_getElem h]
  simp

theorem decryptChar_encryptChar {s : Int} (h1 : 1 ≤ s) (h2 : s ≤ 25) (c : Char) :
    decryptChar s (encryptChar s c) = c := by
  have hcast : ((charset.length : Nat) : Int) = 97 := by rw [charset_length]; rfl
  rcases hidx : idxIn c charset with _ | i
  · simp only [encryptChar, hidx]
    simp only [decryptChar, hidx]
  · have hi : i < charset.length := idxIn_lt_length hidx
    have hi97 : i < 97 := charset_length ▸ hi
    simp only [encryptChar, hidx, hcast]
    set j : Int := ((i : Int) + s) % 97 with hj
    have hj0 : 0 ≤ j := Int.emod_nonneg _ (by norm_num)
    have hj97 : j < 97 := Int.emod_lt_of_pos _ (by norm_num)
    have hjt : j.toNat < charset.length := by rw [charset_length]; omega
    have hidx2 : idxIn (charset.getD j.toNat 'a') charset = some j.toNat :=
      idxIn_of_getD charset_nodup hjt
    simp only [decryptChar, hidx2, hcast]
    have hback : (((j.toNat : Int) - s) % 97).toNat = i := by
      have : ((j.toNat : Int)) = j := Int.toNat_of_nonneg hj0
      rw [this]
      omega
    rw [hback]
    exact idxIn_getD hidx

theorem encrypt_eq_ok {t : List Char} {s : Int} (ht : t ≠ []) (h1 : 1 ≤ s) (h2 : s ≤ 25) :
    encrypt t s = .ok (t.map (encryptChar s)) := by
  rw [encrypt, if_neg (not_not_intro ⟨h1, h2⟩), if_neg ht]

theorem decrypt_eq_ok {t : List Char} {s : Int} (ht : t ≠ []) (h1 : 1 ≤ s) (h2 : s ≤ 25) :
    decrypt t s = .ok (t.map (decryptChar s)) := by
  rw [decrypt, if_neg (not_not_intro ⟨h1, h2⟩), if_neg ht]

theorem roundTripAux {t : List Char} {s : Int} (ht : t ≠ []) (h1 : 1 ≤ s) (h2 : s ≤ 25) :
    decrypt (t.map (encryptChar s)) s = .ok t := by
  have hm : t.map (encryptChar s) ≠ [] := by
    simpa [List.map_eq_nil_iff] using ht
  rw [decrypt_eq_ok hm h1 h2, List.map_map]
  have : ∀ x ∈ t, (decryptChar s ∘ encryptChar s) x = x := fun x _ =>
    decryptChar_encryptChar h1 h2 x
  rw [List.map_congr_left this]
  simp

/-- Claim C1: for every non-empty text `t` and every shift `s` in `[1,25]`,
decrypting with the same shift used to encrypt recovers the original text
exactly, including pass-through symbols not in the alphabet. -/
theorem caesar_round_trip (t : List Char) (s : Int)
    (ht : t ≠ []) (h1 : 1 ≤ s) (h2 : s ≤ 25) :
    ∃ c, encrypt t s = .ok c ∧ decrypt c s = .ok t :=
  ⟨t.map (encryptChar s), encrypt_eq_ok ht h1 h2, roundTripAux ht h1 h2⟩

/-- Witness for C1 on a text containing the pass-through symbol `é`. -/
theorem caesar_round_trip_witness :
    ("Hé, you!".data ≠ []) ∧ (1 : Int) ≤ 5 ∧ (5 : Int) ≤ 25 ∧
    ∃ c, encrypt ("Hé, you!".data) 5 = .ok c ∧ decrypt c 5 = .ok ("Hé, you!".data) :=
  ⟨by decide, by decide, by decide,
    caesar_round_trip ("Hé, you!".data) 5 (by decide) (by decide) (by decide)⟩

/-- Claim C2: `encrypt` maps each symbol independently and in order — a
symbol at alphabet position `p` is replaced by the symbol at position
`(p + s) mod L`, a symbol not in the alphabet is emitted unchanged — and
the output has exactly the length of the input. -/
theorem encrypt_pointwise (t : List Char) (s : Int)
    (ht : t ≠ []) (h1 : 1 ≤ s) (h2 : s ≤ 25) :
    ∃ out, encrypt t s = .ok out ∧ out.length = t.length ∧
      ∀ i, i < t.length →
        (∀ p, p < charset.length → charset.getD p 'a' = t.getD i 'a' →
          out.getD i 'a' =
            charset.getD (((p : Int) + s) % (charset.length : Int)).toNat 'a') ∧
        (t.getD i 'a' ∉ charset → out.getD i 'a' = t.getD i 'a') := by
  refine ⟨t.map (encryptChar s), encrypt_eq_ok ht h1 h2, by simp, ?_⟩
  intro i hi
  constructor
  · intro p hp hgd
    rw [getD_map hi]
    have hix : idxIn (t.getD i 'a') charset = some p := by
      rw [← hgd]
      exact idxIn_of_getD charset_nodup hp
    simp only [encryptChar, hix]
  · intro hmem
    rw [getD_map hi]
    have hix : idxIn (t.getD i 'a') charset = none := idxIn_eq_none.mpr hmem
    simp only [encryptChar, hix]

/-- Witness for C2 on a text mixing alphabet symbols and a pass-through
symbol. -/
theorem encrypt_pointwise_witness :
    ∃ out, encrypt ("aΩ~".data) 2 = .ok out ∧ out.length = ("aΩ~".data).length ∧
      ∀ i, i < ("aΩ~".data).length →
        (∀ p, p < charset.length → charset.getD p 'a' = ("aΩ~".data).getD i 'a' →
          out.getD i 'a' =
            charset.getD (((p : Int) + 2) % (charset.length : Int)).toNat 'a') ∧
        (("aΩ~".data).getD i 'a' ∉ charset → out.getD i 'a' = ("aΩ~".data).getD i 'a') :=
  encrypt_pointwise ("aΩ~".data) 2 (by decide) (by decide) (by decide)

/-- Claim C3: `encrypt` and `decrypt` validate eagerly — any shift outside
`[1,25]` fails with `invalidArgument` for every text, and the empty text
with an in-range shift fails with `emptyInput`; an error means no output
at all is produced. -/
theorem validation_eager (t : List Char) (s : Int) :
    ((s < 1 ∨ 25 < s) →
      encrypt t s = .error .invalidArgument ∧ decrypt t s = .error .invalidArgument) ∧
    (1 ≤ s → s ≤ 25 →
      encrypt [] s = .error .emptyInput ∧ decrypt [] s = .error .emptyInput) := by
  constructor
  · intro h
    have hc : ¬(1 ≤ s ∧ s ≤ 25) := by omega
    rw [encrypt, if_pos hc, decrypt, if_pos hc]
    exact ⟨rfl, rfl⟩
  · intro h1 h2
    have hc : ¬¬(1 ≤ s ∧ s ≤ 25) := not_not_intro ⟨h1, h2⟩
    rw [encrypt, if_neg hc, if_pos rfl, decrypt, if_neg hc, if_pos rfl]
    exact ⟨rfl, rfl⟩

/-- Witness for C3 at shift 0 (out of range) and at the empty text with
shift 5, matching the spec's examples. -/
theorem validation_eager_witness :
    ((0 : Int) < 1 ∨ 25 < (0 : Int)) ∧
    (encrypt ("abc".data) 0 = .error .invalidArgument ∧
      decrypt ("abc".data) 0 = .error .invalidArgument) ∧
    ((1 : Int) ≤ 5 ∧ (5 : Int) ≤ 25) ∧
    (encrypt [] 5 = .error .emptyInput ∧ decrypt [] 5 = .error .emptyInput) :=
  ⟨by decide, (validation_eager ("abc".data) 0).1 (by decide), by decide,
    (validation_eager [] 5).2 (by decide) (by decide)⟩

/-- Claim C10: when the shift is out of range and the text is empty at the
same time, the shift-range check fires first, so the failure is
`invalidArgument`, not `emptyInput`. -/
theorem shift_checked_before_empty (s : Int) (h : s < 1 ∨ 25 < s) :
    encrypt [] s = .error .invalidArgument ∧ decrypt [] s = .error .invalidArgument := by
  have hc : ¬(1 ≤ s ∧ s ≤ 25) := by omega
  rw [encrypt, if_pos hc, decrypt, if_pos hc]
  exact ⟨rfl, rfl⟩

/-- Witness for C10 at `encrypt("", 0)`. -/
theorem shift_checked_before_empty_witness :
    ((0 : Int) < 1 ∨ 25 < (0 : Int)) ∧
    encrypt [] 0 = .error .invalidArgument ∧ decrypt [] 0 = .error .invalidArgument :=
  ⟨by decide, shift_checked_before_empty 0 (by decide)⟩

theorem lookupShift_map {f : Int → Except CipherError (List Char)}
    {l : List Int} {s : Int} (h : s ∈ l) :
    lookupShift s (l.map fun k => (k, f k)) = some (f s) := by
  induction l with
  | nil => simp at h
  | cons k ks ih =>
    by_cases hk : k = s
    · subst hk
      simp [lookupShift]
    · have hs : s ∈ ks := (List.mem_cons.mp h).resolve_left fun he => hk he.symm
      simpa [lookupShift, hk] using ih hs

theorem shiftsList_eq :
    shiftsList = [1, 2, 3, 4, 5, 6, 7, 8, 9, 10, 11, 12, 13, 14, 15, 16, 17,
      18, 19, 20, 21, 22, 23, 24, 25] := by decide

theorem mem_shiftsList {s : Int} (h1 : 1 ≤ s) (h2 : s ≤ 25) : s ∈ shiftsList := by
  rw [shiftsList_eq]
  simp only [List.mem_cons, List.not_mem_nil, or_false]
  omega

/-- Claim C4: on a non-empty ciphertext, `brute_force_decrypt` returns
exactly 25 entries, keyed by the shifts 1..25 in order; the entry at shift
`s` is the (successful) decryption with shift `s`, and for a ciphertext
produced by `encrypt t s` the entry at `s` recovers `t`.  The empty
ciphertext fails with `emptyInput`. -/
theorem brute_force_complete :
    brute_force_decrypt [] = .error .emptyInput ∧
    ∀ c : List Char, c ≠ [] →
      ∃ entries, brute_force_decrypt c = .ok entries ∧
        entries.length = 25 ∧
        entries.map Prod.fst = shiftsList ∧
        (∀ s : Int, 1 ≤ s → s ≤ 25 →
          lookupShift s entries = some (decrypt c s) ∧ ∃ d, decrypt c s = .ok d) ∧
        (∀ t : List Char, ∀ s : Int, t ≠ [] → 1 ≤ s → s ≤ 25 →
          encrypt t s = .ok c → lookupShift s entries = some (.ok t)) := by
  constructor
  · rw [brute_force_decrypt, if_pos rfl]
  · intro c hc
    refine ⟨shiftsList.map fun s => (s, decrypt c s), ?_, ?_, ?_, ?_, ?_⟩
    · rw [brute_force_decrypt, if_neg hc]
    · simp only [List.length_map]
      decide
    · conv_rhs => rw [← List.map_id shiftsList]
      rw [List.map_map]
      exact List.map_congr_left fun a _ => rfl
    · intro s h1 h2
      exact ⟨lookupShift_map (mem_shiftsList h1 h2),
        c.map (decryptChar s), decrypt_eq_ok hc h1 h2⟩
    · intro t s ht h1 h2 henc
      have hcm : c = t.map (encryptChar s) := by
        rw [encrypt_eq_ok ht h1 h2] at henc
        exact (Except.ok.inj henc).symm
      rw [lookupShift_map (mem_shiftsList h1 h2), hcm, roundTripAux ht h1 h2]

/-- Witness for C4 at the ciphertext `encrypt("abc", 3) = "def"`; the last
conjunct applied to `t = "abc"`, `s = 3` gives the spec's example
`bruteForceDecode(encode("abc", 3))[3] == "abc"`. -/
theorem brute_force_complete_witness :
    ("def".data ≠ []) ∧
    ∃ entries, brute_force_decrypt ("def".data) = .ok entries ∧
      entries.length = 25 ∧
      entries.map Prod.fst = shiftsList ∧
      (∀ s : Int, 1 ≤ s → s ≤ 25 →
        lookupShift s entries = some (decrypt ("def".data) s) ∧
          ∃ d, decrypt ("def".data) s = .ok d) ∧
      (∀ t : List Char, ∀ s : Int, t ≠ [] → 1 ≤ s → s ≤ 25 →
        encrypt t s = .ok ("def".data) → lookupShift s entries = some (.ok t)) :=
  ⟨by decide, brute_force_complete.2 ("def".data) (by decide)⟩

theorem sortedDedup_cons (x : Nat) (xs : List Nat) :
    sortedDedup (x :: xs) = insertNoDup x (sortedDedup xs) := rfl

theorem mem_insertNoDup {a n : Nat} {l : List Nat} :
    a ∈ insertNoDup n l ↔ a = n ∨ a ∈ l := by
  induction l with
  | nil => simp [insertNoDup]
  | cons m ms ih =>
    by_cases h1 : n < m
    · simp [insertNoDup, h1]
    · by_cases h2 : n = m
      · subst h2
        simp [insertNoDup, h1]
      · simp [insertNoDup, h1, h2, ih]
        tauto

theorem pairwise_insertNoDup {n : Nat} {l : List Nat}
    (h : List.Pairwise (· < ·) l) :
    List.Pairwise (· < ·) (insertNoDup n l) := by
  induction l with
  | nil => simp [insertNoDup]
  | cons m ms ih =>
    rw [List.pairwise_cons] at h
    obtain ⟨hm, hms⟩ := h
    by_cases h1 : n < m
    · simp only [insertNoDup, if_pos h1]
      refine List.pairwise_cons.mpr ⟨?_, List.pairwise_cons.mpr ⟨hm, hms⟩⟩
      intro b hb
      rcases List.mem_cons.mp hb with rfl | hb'
      · exact h1
      · exact h1.trans (hm b hb')
    · by_cases h2 : n = m
      · subst h2
        simp only [insertNoDup, if_neg h1, if_pos rfl]
        exact List.pairwise_cons.mpr ⟨hm, hms⟩
      · simp only [insertNoDup, if_neg h1, if_neg h2]
        refine List.pairwise_cons.mpr ⟨?_, ih hms⟩
        intro b hb
        rcases mem_insertNoDup.mp hb with rfl | hb'
        · omega
        · exact hm b hb'

theorem length_insertNoDup {n : Nat} {l : List Nat} :
    (insertNoDup n l).length ≤ l.length + 1 := by
  induction l with
  | nil => simp [insertNoDup]
  | cons m ms ih =>
    by_cases h1 : n < m
    · simp [insertNoDup, h1]
    · by_cases h2 : n = m
      · simp [insertNoDup, h1, h2]
      · simp only [insertNoDup, if_neg h1, if_neg h2, List.length_cons]
        omega

theorem mem_sortedDedup {a : Nat} {xs : List Nat} :
    a ∈ sortedDedup xs ↔ a ∈ xs := by
  induction xs with
  | nil => simp [sortedDedup]
  | cons x xs ih =>
    rw [sortedDedup_cons]
    simp [mem_insertNoDup, ih]

theorem pairwise_sortedDedup (xs : List Nat) :
    List.Pairwise (· < ·) (sortedDedup xs) := by
  induction xs with
  | nil => simp [sortedDedup]
  | cons x xs ih =>
    rw [sortedDedup_cons]
    exact pairwise_insertNoDup ih

theorem length_sortedDedup_le (xs : List Nat) :
    (sortedDedup xs).length ≤ xs.length := by
  induction xs with
  | nil => simp [sortedDedup]
  | cons x xs ih =>
    rw [sortedDedup_cons]
    calc (insertNoDup x (sortedDedup xs)).length
        ≤ (sortedDedup xs).length + 1 := length_insertNoDup
      _ ≤ xs.length + 1 := by omega
      _ = (x :: xs).length := by simp

/-- Claim C6: the empty sample yields exactly `[1, 3, 5, 13]`; every fixed
pattern found in the sample (case-insensitively) contributes its
associated shift; the fixed broader default list is used when no pattern
matches; and the result is always strictly ascending (hence deduplicated
and sorted) with at most 5 entries. -/
theorem shift_suggestions_spec :
    generate_shift_suggestions [] = [1, 3, 5, 13] ∧
    (∀ sample : List Char,
      List.Pairwise (· < ·) (generate_shift_suggestions sample) ∧
      (generate_shift_suggestions sample).length ≤ 5) ∧
    (∀ sample : List Char, sample ≠ [] →
      ∀ p k, (p, k) ∈ common_patterns →
        containsSub (sample.map Char.toLower) (p.map Char.toLower) = true →
        k ∈ generate_shift_suggestions sample) ∧
    (∀ sample : List Char, sample ≠ [] →
      (∀ p k, (p, k) ∈ common_patterns →
        containsSub (sample.map Char.toLower) (p.map Char.toLower) = false) →
      generate_shift_suggestions sample = [1, 3, 5, 7, 13]) := by
  refine ⟨rfl, ?_, ?_, ?_⟩
  · intro sample
    by_cases hs : sample = []
    · subst hs
      constructor
      · decide
      · decide
    · have hshape : ∃ L, generate_shift_suggestions sample = (sortedDedup L).take 5 := by
        rw [generate_shift_suggestions, if_neg hs]
        by_cases hm : matchedShifts sample = []
        · rw [if_pos hm]
          exact ⟨_, rfl⟩
        · rw [if_neg hm]
          exact ⟨_, rfl⟩
      obtain ⟨L, hL⟩ := hshape
      rw [hL]
      constructor
      · exact (pairwise_sortedDedup L).sublist (List.take_sublist 5 _)
      · simp only [List.length_take]
        omega
  · intro sample hs p k hpk hmatch
    have hk : k ∈ matchedShifts sample := by
      refine List.mem_filterMap.mpr ⟨(p, k), hpk, ?_⟩
      simp [hmatch]
    have hne : matchedShifts sample ≠ [] := by
      intro h
      rw [h] at hk
      simp at hk
    rw [generate_shift_suggestions, if_neg hs, if_neg hne]
    have hlen : (sortedDedup (matchedShifts sample)).length ≤ 5 :=
      calc (sortedDedup (matchedShifts sample)).length
          ≤ (matchedShifts sample).length := length_sortedDedup_le _
        _ ≤ common_patterns.length := List.length_filterMap_le _ _
        _ = 5 := rfl
    rw [List.take_of_length_le hlen]
    exact mem_sortedDedup.mpr hk
  · intro sample hs hnone
    have hm : matchedShifts sample = [] := by
      rw [matchedShifts, List.filterMap_eq_nil_iff]
      intro ps hps
      have := hnone ps.1 ps.2 (by simpa using hps)
      simp [this]
    rw [generate_shift_suggestions, if_neg hs, if_pos hm]
    decide

/-- Witness for C6: a sample containing the pattern `print(` (associated
shift 7) yields a suggestion list containing 7. -/
theorem shift_suggestions_witness :
    ("print(x)".data ≠ []) ∧
    (("print(".data, 7) ∈ common_patterns) ∧
    (containsSub (("print(x)".data).map Char.toLower)
      (("print(".data).map Char.toLower) = true) ∧
    7 ∈ generate_shift_suggestions ("print(x)".data) :=
  ⟨by decide, by decide, by decide,
    shift_suggestions_spec.2.2.1 ("print(x)".data) (by decide) ("print(".data) 7
      (by decide) (by decide)⟩

/-- Claim C7: `analyze_encrypted_text` never fails — the empty string
yields the distinguished `emptyError` marker and every non-empty text
yields a result — unlike `encrypt`, `decrypt` and `brute_force_decrypt`,
which reject empty input with `emptyInput`. -/
theorem analyze_never_fails :
    analyze_encrypted_text [] = .emptyError ∧
    (∀ t : List Char, t ≠ [] → ∃ a, analyze_encrypted_text t = .result a) ∧
    (∀ s : Int, 1 ≤ s → s ≤ 25 →
      encrypt [] s = .error .emptyInput ∧ decrypt [] s = .error .emptyInput) ∧
    brute_force_decrypt [] = .error .emptyInput := by
  refine ⟨rfl, ?_, ?_, rfl⟩
  · intro t ht
    rw [analyze_encrypted_text, if_neg ht]
    exact ⟨_, rfl⟩
  · intro s h1 h2
    have hc : ¬¬(1 ≤ s ∧ s ≤ 25) := not_not_intro ⟨h1, h2⟩
    rw [encrypt, if_neg hc, if_pos rfl, decrypt, if_neg hc, if_pos rfl]
    exact ⟨rfl, rfl⟩

/-- Witness for C7 at the one-character text `"x"` and shift 5. -/
theorem analyze_never_fails_witness :
    ("x".data ≠ []) ∧
    (∃ a, analyze_encrypted_text ("x".data) = .result a) ∧
    ((1 : Int) ≤ 5 ∧ (5 : Int) ≤ 25) ∧
    (encrypt [] 5 = .error .emptyInput ∧ decrypt [] 5 = .error .emptyInput) :=
  ⟨by decide, analyze_never_fails.2.1 ("x".data) (by decide), by decide,
    analyze_never_fails.2.2.1 5 (by decide) (by decide)⟩

/-- Claim C8: `validate_shift` is total — it returns a boolean for every
input value, `true` exactly when the value is an integer in `[1, 25]`, and
`false` (not an error) for malformed input. -/
theorem validate_shift_total :
    (∀ v : PyVal, validate_shift v = true ↔
      ∃ n : Int, v = .intVal n ∧ 1 ≤ n ∧ n ≤ 25) ∧
    validate_shift (.intVal 13) = true ∧
    validate_shift (.intVal 0) = false ∧
    validate_shift (.intVal 26) = false ∧
    validate_shift (.strVal ("x".data)) = false := by
  refine ⟨?_, by decide, by decide, by decide, by decide⟩
  intro v
  cases v with
  | intVal n => simp [validate_shift]
  | strVal s => simp [validate_shift]
  | floatVal => simp [validate_shift]
  | noneVal => simp [validate_shift]

/-- Witness for C8 at the integer value 13. -/
theorem validate_shift_total_witness :
    validate_shift (.intVal 13) = true ↔
      ∃ n : Int, PyVal.intVal 13 = .intVal n ∧ 1 ≤ n ∧ n ≤ 25 :=
  validate_shift_total.1 (.intVal 13)

/-- Counterexample to C9 as stated: the alphabet does not start with the
upper-case letters — position 0 of `charset` holds `'a'`, not `'A'`, so
`charset` differs from the spec-ordered concatenation. -/
theorem charset_order_counterexample :
    charset.getD 0 'z' = 'a' ∧ charsetSpecOrder.getD 0 'z' = 'A' ∧
    charset ≠ charsetSpecOrder := by decide

/-- Claim C9 (amended): the alphabet is the lower-case letters, upper-case
letters, digits, punctuation, space, newline and tab concatenated in that
fixed order; it contains every symbol exactly once, and symbol-to-position
lookup is well defined: `idxIn` returns exactly the unique position of
each alphabet symbol. -/
theorem charset_amended :
    charset =
      (ascii_lowercase ++ ascii_uppercase ++ digits ++ punctuation ++ " \n\t").data ∧
    charset.Nodup ∧ charset.length = 97 ∧
    ∀ c p, idxIn c charset = some p ↔ p < charset.length ∧ charset.getD p 'a' = c := by
  refine ⟨rfl, charset_nodup, charset_length, ?_⟩
  intro c p
  constructor
  · intro h
    exact ⟨idxIn_lt_length h, idxIn_getD h⟩
  · rintro ⟨hp, hgd⟩
    rw [← hgd]
    exact idxIn_of_getD charset_nodup hp

/-- Witness for the amended C9 at symbol `'a'`, position 0. -/
theorem charset_amended_witness :
    idxIn 'a' charset = some 0 ↔ 0 < charset.length ∧ charset.getD 0 'a' = 'a' :=
  charset_amended.2.2.2 'a' 0

theorem mem_firstOccurs {c : Char} {t : List Char} : c ∈ firstOccurs t ↔ c ∈ t := by
  induction t with
  | nil => simp [firstOccurs]
  | cons d ds ih =>
    simp only [firstOccurs, List.mem_cons, List.mem_filter, bne_iff_ne, ne_eq]
    constructor
    · rintro (rfl | ⟨h1, _⟩)
      · exact Or.inl rfl
      · exact Or.inr (ih.mp h1)
    · rintro (rfl | h)
      · exact Or.inl rfl
      · by_cases hc : c = d
        · exact Or.inl hc
        · exact Or.inr ⟨ih.mpr h, hc⟩

theorem nodup_firstOccurs (t : List Char) : (firstOccurs t).Nodup := by
  induction t with
  | nil => simp [firstOccurs]
  | cons d ds ih =>
    rw [firstOccurs, List.nodup_cons]
    refine ⟨?_, ih.filter _⟩
    intro hd
    have := (List.mem_filter.mp hd).2
    simp at this

theorem fstIdx_cons_self (c : Char) (t : List Char) : fstIdx (c :: t) c = 0 := by
  simp [fstIdx, idxIn]

theorem fstIdx_cons_ne {c d : Char} (t : List Char) (h : d ≠ c) :
    fstIdx (d :: t) c = fstIdx t c + 1 := by
  rw [fstIdx, fstIdx, idxIn, if_neg h]
  cases hx : idxIn c t with
  | none => simp
  | some i => simp

theorem pairwise_firstOccurs (t : List Char) :
    (firstOccurs t).Pairwise fun a b => fstIdx t a < fstIdx t b := by
  induction t with
  | nil => simp [firstOccurs]
  | cons d ds ih =>
    rw [firstOccurs, List.pairwise_cons]
    constructor
    · intro b hb
      have hbne : b ≠ d := by simpa using (List.mem_filter.mp hb).2
      rw [fstIdx_cons_self, fstIdx_cons_ne ds (Ne.symm hbne)]
      omega
    · have hfil := ih.filter fun x => x != d
      refine List.Pairwise.imp_of_mem ?_ hfil
      intro a b ha hb hab
      have hane : a ≠ d := by simpa using (List.mem_filter.mp ha).2
      have hbne : b ≠ d := by simpa using (List.mem_filter.mp hb).2
      rw [fstIdx_cons_ne ds (Ne.symm hane), fstIdx_cons_ne ds (Ne.symm hbne)]
      omega

theorem firstOccurs_append_singleton (xs : List Char) (c : Char) :
    firstOccurs (xs ++ [c]) =
      if c ∈ xs then firstOccurs xs else firstOccurs xs ++ [c] := by
  induction xs with
  | nil => simp [firstOccurs]
  | cons x xs ih =>
    by_cases hc : c ∈ x :: xs
    · rw [if_pos hc]
      rcases List.mem_cons.mp hc with rfl | hmem
      · by_cases hcx : c ∈ xs
        · rw [List.cons_append, firstOccurs, ih, if_pos hcx, firstOccurs]
        · rw [List.cons_append, firstOccurs, ih, if_neg hcx, List.filter_append]
          simp [firstOccurs]
      · rw [List.cons_append, firstOccurs, ih, if_pos hmem, firstOccurs]
    · rw [if_neg hc]
      have hx : c ≠ x := fun h => hc (h ▸ List.mem_cons_self x xs)
      have hxs : c ∉ xs := fun h => hc (List.mem_cons_of_mem x h)
      rw [List.cons_append, firstOccurs, ih, if_neg hxs, List.filter_append,
        firstOccurs]
      simp [hx]

theorem bump_map_of_not_mem {f : Char → Nat} {ks : List Char} {c : Char}
    (h : c ∉ ks) :
    bump (ks.map fun d => (d, f d)) c = ks.map (fun d => (d, f d)) ++ [(c, 1)] := by
  induction ks with
  | nil => simp [bump]
  | cons k ks ih =>
    have hk : k ≠ c := fun he => h (he ▸ List.mem_cons_self k ks)
    simp only [List.map_cons, bump, if_neg hk, List.cons_append]
    rw [ih fun hm => h (List.mem_cons_of_mem k hm)]

theorem bump_map_of_mem {f : Char → Nat} {ks : List Char} {c : Char}
    (hnd : ks.Nodup) (h : c ∈ ks) :
    bump (ks.map fun d => (d, f d)) c =
      ks.map fun d => (d, if d = c then f d + 1 else f d) := by
  induction ks with
  | nil => simp at h
  | cons k ks ih =>
    rcases List.mem_cons.mp h with rfl | hmem
    · simp only [List.map_cons, bump]
      simp only [if_true]
      congr 1
      apply List.map_congr_left
      intro d hd
      have hdc : d ≠ c := fun he => (List.nodup_cons.mp hnd).1 (he ▸ hd)
      simp [hdc]
    · have hk : k ≠ c := fun he => (List.nodup_cons.mp hnd).1 (he ▸ hmem)
      simp only [List.map_cons, bump, if_neg hk]
      rw [ih (List.nodup_cons.mp hnd).2 hmem]

theorem buildFreq_eq (t : List Char) :
    buildFreq t = (firstOccurs t).map fun c => (c, t.count c) := by
  induction t using List.reverseRecOn with
  | nil => simp [buildFreq, firstOccurs]
  | append_singleton pre c ih =>
    have hstep : buildFreq (pre ++ [c]) = bump (buildFreq pre) c := by
      rw [buildFreq, List.foldl_append]
      rfl
    rw [hstep, ih]
    by_cases hc : c ∈ pre
    · have hcfo : c ∈ firstOccurs pre := mem_firstOccurs.mpr hc
      rw [bump_map_of_mem (nodup_firstOccurs pre) hcfo,
        firstOccurs_append_singleton, if_pos hc]
      apply List.map_congr_left
      intro d hd
      by_cases hdc : d = c
      · subst hdc
        simp [List.count_append]
      · simp [List.count_append, hdc]
    · have hcfo : c ∉ firstOccurs pre := fun h => hc (mem_firstOccurs.mp h)
      rw [bump_map_of_not_mem hcfo, firstOccurs_append_singleton, if_neg hc,
        List.map_append]
      congr 1
      · apply List.map_congr_left
        intro d hd
        have hdc : d ≠ c := fun he => hc (he ▸ mem_firstOccurs.mp hd)
        simp [List.count_append, hdc]
      · simp [List.count_append, List.count_eq_zero.mpr hc]

theorem pickBy_le : ∀ (xs : List (Char × Nat)) (x y : Char × Nat),
    y ∈ x :: xs → y.2 ≤ (pickBy x xs).2 := by
  intro xs
  induction xs with
  | nil =>
    intro x y hy
    rcases List.mem_cons.mp hy with rfl | h
    · exact le_refl _
    · simp at h
  | cons z zs ih =>
    intro x y hy
    have hun : pickBy x (z :: zs) = pickBy (if x.2 < z.2 then z else x) zs := rfl
    rw [hun]
    have hxb : x.2 ≤ (if x.2 < z.2 then z else x).2 := by
      split <;> omega
    have hzb : z.2 ≤ (if x.2 < z.2 then z else x).2 := by
      split <;> omega
    have hbb : (if x.2 < z.2 then z else x).2 ≤
        (pickBy (if x.2 < z.2 then z else x) zs).2 :=
      ih _ _ (List.mem_cons_self _ _)
    rcases List.mem_cons.mp hy with rfl | hy'
    · exact le_trans hxb hbb
    · rcases List.mem_cons.mp hy' with rfl | hy''
      · exact le_trans hzb hbb
      · exact ih _ y (List.mem_cons_of_mem _ hy'')

theorem pickBy_split : ∀ (xs : List (Char × Nat)) (x : Char × Nat),
    ∃ l1 l2, x :: xs = l1 ++ pickBy x xs :: l2 ∧
      ∀ y ∈ l1, y.2 < (pickBy x xs).2 := by
  intro xs
  induction xs with
  | nil =>
    intro x
    exact ⟨[], [], rfl, by simp⟩
  | cons z zs ih =>
    intro x
    have hun : pickBy x (z :: zs) = pickBy (if x.2 < z.2 then z else x) zs := rfl
    by_cases hlt : x.2 < z.2
    · rw [hun, if_pos hlt]
      obtain ⟨l1, l2, heq, hall⟩ := ih z
      refine ⟨x :: l1, l2, ?_, ?_⟩
      · rw [List.cons_append, ← heq]
      · intro y hy
        rcases List.mem_cons.mp hy with rfl | hy'
        · have hz := pickBy_le zs z z (List.mem_cons_self z zs)
          omega
        · exact hall y hy'
    · rw [hun, if_neg hlt]
      obtain ⟨l1, l2, heq, hall⟩ := ih x
      cases l1 with
      | nil =>
        simp only [List.nil_append] at heq
        injection heq with h1 h2
        refine ⟨[], z :: zs, ?_, by simp⟩
        rw [List.nil_append, ← h1]
      | cons w l1' =>
        rw [List.cons_append] at heq
        injection heq with h1 h2
        subst h1
        refine ⟨x :: z :: l1', l2, ?_, ?_⟩
        · rw [List.cons_append, List.cons_append, ← h2]
        · intro y hy
          have hxlt : x.2 < (pickBy x zs).2 := hall x (List.mem_cons_self x l1')
          rcases List.mem_cons.mp hy with rfl | hy'
          · exact hxlt
          · rcases List.mem_cons.mp hy' with rfl | hy''
            · omega
            · exact hall y (List.mem_cons_of_mem x hy'')

theorem map_eq_append_cons {f : Char → Char × Nat} :
    ∀ {l1 : List (Char × Nat)} {ks : List Char} {r : Char × Nat}
      {l2 : List (Char × Nat)},
      ks.map f = l1 ++ r :: l2 →
      ∃ k1 kc k2, ks = k1 ++ kc :: k2 ∧ k1.map f = l1 ∧ f kc = r := by
  intro l1
  induction l1 with
  | nil =>
    intro ks r l2 h
    cases ks with
    | nil => simp at h
    | cons k ks' =>
      simp only [List.map_cons, List.nil_append] at h
      injection h with h1 h2
      exact ⟨[], k, ks', rfl, rfl, h1⟩
  | cons a l1' ih =>
    intro ks r l2 h
    cases ks with
    | nil => simp at h
    | cons k ks' =>
      simp only [List.map_cons, List.cons_append] at h
      injection h with h1 h2
      obtain ⟨k1, kc, k2, hks, hmap, hr⟩ := ih h2
      exact ⟨k :: k1, kc, k2, by rw [hks, List.cons_append],
        by rw [List.map_cons, hmap, h1], hr⟩

/-- Claim C5: on every non-empty text, `analyze_encrypted_text` reports as
most frequent the symbol selected by the leftmost-first-occurrence
tie-break — its count is maximal and, among symbols attaining the maximal
count, the reported one has the earliest first occurrence — together with
its occurrence count and its percentage of the total length rounded to 2
decimal places; concretely `analyze("aabb")` has length 4, 2 distinct
symbols, and reports `'a'` with count 2 and percentage 50. -/
theorem analyze_most_common_tiebreak :
    (∀ t : List Char, t ≠ [] →
      ∃ a mc, analyze_encrypted_text t = .result a ∧
        a.most_common_char = some mc ∧
        mc.char ∈ t ∧
        mc.count = t.count mc.char ∧
        (∀ d ∈ t, t.count d ≤ mc.count) ∧
        (∀ d ∈ t, t.count d = mc.count → fstIdx t mc.char ≤ fstIdx t d) ∧
        mc.percentage = round2 (((mc.count : ℚ) / (t.length : ℚ)) * 100) ∧
        a.length = t.length ∧
        a.unique_chars = t.dedup.length) ∧
    analyze_encrypted_text ("aabb".data) =
      .result ⟨4, 2, [('a', 2), ('b', 2)], some ⟨'a', 2, 50⟩, 4, 0⟩ := by
  constructor
  · intro t ht
    have hfo : firstOccurs t ≠ [] := by
      cases t with
      | nil => exact absurd rfl ht
      | cons c cs => simp [firstOccurs]
    obtain ⟨k0, ks', hks⟩ := List.exists_cons_of_ne_nil hfo
    set F : Char → Char × Nat := fun c => (c, t.count c) with hF
    have hfreq2 : buildFreq t = F k0 :: ks'.map F := by
      rw [buildFreq_eq t, hks, List.map_cons]
    have hmax : maxByCount (buildFreq t) = some (pickBy (F k0) (ks'.map F)) := by
      rw [hfreq2]
      rfl
    obtain ⟨l1, l2, hsplit, hless⟩ := pickBy_split (ks'.map F) (F k0)
    have hrmem2 : pickBy (F k0) (ks'.map F) ∈ (firstOccurs t).map F := by
      rw [hks, List.map_cons, hsplit]
      exact List.mem_append_right l1 (List.mem_cons_self _ _)
    obtain ⟨c0, hc0fo, hc0r⟩ := List.mem_map.mp hrmem2
    have hc0t : c0 ∈ t := mem_firstOccurs.mp hc0fo
    have hr2 : (pickBy (F k0) (ks'.map F)).2 = t.count c0 := by rw [← hc0r]
    have hmaxcount : ∀ d ∈ t, t.count d ≤ t.count c0 := by
      intro d hd
      have hdm : F d ∈ F k0 :: ks'.map F := by
        have hdm0 : F d ∈ (firstOccurs t).map F :=
          List.mem_map_of_mem F (mem_firstOccurs.mpr hd)
        rw [hks, List.map_cons] at hdm0
        exact hdm0
      have hle := pickBy_le (ks'.map F) (F k0) (F d) hdm
      rw [hr2] at hle
      exact hle
    have hmapsplit : (firstOccurs t).map F = l1 ++ pickBy (F k0) (ks'.map F) :: l2 := by
      rw [hks, List.map_cons, hsplit]
    obtain ⟨k1, kc, k2, hksdec, hk1map, hkcr⟩ := map_eq_append_cons hmapsplit
    have hkc0 : kc = c0 := by
      have hfst : (F kc).1 = (F c0).1 := by rw [hkcr, hc0r]
      simpa [hF] using hfst
    have htie : ∀ d ∈ t, t.count d = t.count c0 → fstIdx t c0 ≤ fstIdx t d := by
      intro d hd hcnt
      have hdfo : d ∈ firstOccurs t := mem_firstOccurs.mpr hd
      rw [hksdec] at hdfo
      rcases List.mem_append.mp hdfo with hdk1 | hdk2
      · exfalso
        have hdl1 : F d ∈ l1 := by
          rw [← hk1map]
          exact List.mem_map_of_mem F hdk1
        have hlt := hless (F d) hdl1
        rw [hr2] at hlt
        simp only [hF] at hlt
        omega
      · rcases List.mem_cons.mp hdk2 with rfl | hdk2'
        · rw [hkc0]
        · have hpw := pairwise_firstOccurs t
          rw [hksdec, List.pairwise_append, List.pairwise_cons] at hpw
          have hcd := hpw.2.1.1 d hdk2'
          rw [hkc0] at hcd
          omega
    have hmc : (maxByCount (buildFreq t)).map
        (fun mc => MostCommon.mk mc.1 mc.2
          (round2 (((mc.2 : ℚ) / (t.length : ℚ)) * 100)))
        = some ⟨c0, t.count c0, round2 (((t.count c0 : ℚ) / (t.length : ℚ)) * 100)⟩ := by
      rw [hmax, ← hc0r]
      rfl
    rw [analyze_encrypted_text, if_neg ht]
    exact ⟨_, ⟨c0, t.count c0, round2 (((t.count c0 : ℚ) / (t.length : ℚ)) * 100)⟩,
      rfl, hmc, hc0t, rfl, hmaxcount, htie, rfl, rfl, rfl⟩
  · have hmax : maxByCount (buildFreq ("aabb".data)) = some ('a', 2) := by decide
    rw [analyze_encrypted_text, if_neg (by decide), hmax]
    simp only [Option.map_some', AnalyzeResult.result.injEq, Analysis.mk.injEq,
      Option.some.injEq, MostCommon.mk.injEq]
    exact ⟨by decide, by decide, by decide,
      ⟨by decide, by decide,
        by norm_num [round2, halfEvenRound, (by decide : ("aabb".data).length = 4)]⟩,
      by decide, by decide⟩

/-- Witness for C5 at the spec's example text `"aabb"`. -/
theorem analyze_most_common_witness :
    ("aabb".data ≠ []) ∧
    ∃ a mc, analyze_encrypted_text ("aabb".data) = .result a ∧
      a.most_common_char = some mc ∧
      mc.char ∈ "aabb".data ∧
      mc.count = ("aabb".data).count mc.char ∧
      (∀ d ∈ "aabb".data, ("aabb".data).count d ≤ mc.count) ∧
      (∀ d ∈ "aabb".data, ("aabb".data).count d = mc.count →
        fstIdx ("aabb".data) mc.char ≤ fstIdx ("aabb".data) d) ∧
      mc.percentage = round2 (((mc.count : ℚ) / (("aabb".data).length : ℚ)) * 100) ∧
      a.length = ("aabb".data).length ∧
      a.unique_chars = ("aabb".data).dedup.length :=
  ⟨by decide, analyze_most_common_tiebreak.1 ("aabb".data) (by decide)⟩
